import Mathlib

/-!
Shallow embedding of `src/json_to_csv_converter.py` (class `JSONToCSVConverter`):
the recursive flattening algorithm `flatten_dict`, the array-explosion loop of
`convert_with_array_explosion`, the column reconciliation (fieldname union,
sort, and `csv.DictWriter` padding) and the conversion drivers.

Modelling conventions:
  - JSON values are the mutual inductive `Value`/`ValueList`/`Fields`
    (`Fields` mirrors a Python dict as an insertion-ordered association
    list; real Python dicts always have distinct keys).
  - JSON numbers are modelled as integers (`Int`); no claim depends on
    float formatting.
  - Python `dict(items)` (last writer wins, first occurrence keeps its
    position) is `pyDict`; `d[k] = v` is `insertAssign`; `d.update(e)` is
    `Fields.update`; `del d[k]` is `Fields.erase`.
  - `json.dumps` with default options is `jsonDumps`; Python `str()` is
    `pyStr` (for container values, `str` falls back to `repr`, modelled by
    `pyRepr` for values whose strings need no quote escaping).
  - Exceptions are modelled with `Except`/`Option`: `ConvError` covers the
    two `ValueError`s the driver raises; the explosion driver returns
    `none` where the Python code would raise a runtime `TypeError` /
    `AttributeError` (non-dict record reaching `record.copy()` /
    `flatten_dict`, or a non-iterable top level).
-/

namespace JsonToCsv

mutual
inductive Value : Type where
  | null : Value
  | bool : Bool → Value
  | num : Int → Value
  | str : String → Value
  | arr : ValueList → Value
  | obj : Fields → Value

inductive ValueList : Type where
  | nil : ValueList
  | cons : Value → ValueList → ValueList

inductive Fields : Type where
  | nil : Fields
  | cons : String → Value → Fields → Fields
end

deriving instance DecidableEq for Value, ValueList, Fields

/-- The elements of an array value, as an ordinary list. -/
def ValueList.toList : ValueList → List Value
  | .nil => []
  | .cons v rest => v :: rest.toList

/-- The key/value pairs of an object value, as an ordinary list. -/
def Fields.toList : Fields → List (String × Value)
  | .nil => []
  | .cons k v rest => (k, v) :: rest.toList

/-- The keys of an object value, in insertion order. -/
def Fields.keys (fs : Fields) : List String := fs.toList.map Prod.fst

/-- Python `d[k]` / `k in d` on a dict: find the value bound to `k`. -/
def Fields.lookup : Fields → String → Option Value
  | .nil, _ => none
  | .cons k v rest, k2 => if k = k2 then some v else Fields.lookup rest k2

/-- Python `del d[k]`: remove the binding of `k` (dicts bind a key once). -/
def Fields.erase : Fields → String → Fields
  | .nil, _ => .nil
  | .cons k v rest, k2 => if k = k2 then rest.erase k2 else .cons k v (rest.erase k2)

/-- Python `d[k] = v`: overwrite in place if `k` is bound, else append. -/
def Fields.insertAssign : Fields → String → Value → Fields
  | .nil, k, v => .cons k v .nil
  | .cons k1 v1 rest, k, v =>
    if k1 = k then .cons k v rest else .cons k1 v1 (rest.insertAssign k v)

/-- Python `d.update(e)`: assign each binding of `e` into `d`, in order. -/
def Fields.update : Fields → Fields → Fields
  | base, .nil => base
  | base, .cons k v rest => Fields.update (base.insertAssign k v) rest

/-- Append a binding at the end (used to state explode results). -/
def Fields.push : Fields → String → Value → Fields
  | .nil, k, v => .cons k v .nil
  | .cons k1 v1 rest, k, v => .cons k1 v1 (rest.push k v)

/-- A scalar is a Null, Boolean, Number or Text value. -/
def Value.isScalar : Value → Bool
  | .arr _ => false
  | .obj _ => false
  | _ => true

/-- Whether the value is an Object. -/
def Value.isObj : Value → Bool
  | .obj _ => true
  | _ => false

/-- Whether the value is an Array. -/
def Value.isArr : Value → Bool
  | .arr _ => true
  | _ => false

/-- `isinstance(item, (str, int, float, bool))`: the guard of the join
branch of `flatten_dict` under the `dot_notation` strategy.  Note that
Python's `None` is not an instance of any of these types. -/
def isJoinScalar : Value → Bool
  | .bool _ => true
  | .num _ => true
  | .str _ => true
  | _ => false

/-- One hexadecimal digit (lower case), for unicode escapes. -/
def hexDigit (n : Nat) : Char :=
  if n < 10 then Char.ofNat (48 + n) else Char.ofNat (87 + n)

/-- Four hexadecimal digits, for a `\uXXXX` escape. -/
def hex4 (n : Nat) : String :=
  String.mk [hexDigit (n / 4096 % 16), hexDigit (n / 256 % 16),
             hexDigit (n / 16 % 16), hexDigit (n % 16)]

/-- How `json.dumps` (default options, `ensure_ascii=True`) renders one
character inside a string literal. -/
def jsonEscapeChar (c : Char) : String :=
  if c = Char.ofNat 34 then "\\\""
  else if c = Char.ofNat 92 then "\\\\"
  else if c = Char.ofNat 10 then "\\n"
  else if c = Char.ofNat 9 then "\\t"
  else if c = Char.ofNat 13 then "\\r"
  else if c.toNat = 8 then "\\b"
  else if c.toNat = 12 then "\\f"
  else if c.toNat < 32 || c.toNat > 126 then
    if c.toNat < 65536 then "\\u" ++ hex4 c.toNat
    else
      "\\u" ++ hex4 (55296 + (c.toNat - 65536) / 1024) ++
      "\\u" ++ hex4 (56320 + (c.toNat - 65536) % 1024)
  else String.singleton c

/-- A JSON string literal as `json.dumps` produces it. -/
def jsonQuote (s : String) : String :=
  "\"" ++ String.join (s.data.map jsonEscapeChar) ++ "\""

mutual
/-- `json.dumps(value)` with the default options (item separator `", "`,
key separator `": "`). -/
def jsonDumps : Value → String
  | .null => "null"
  | .bool true => "true"
  | .bool false => "false"
  | .num n => toString n
  | .str s => jsonQuote s
  | .arr xs => "[" ++ jsonDumpsElems xs ++ "]"
  | .obj fs => "\x7b" ++ jsonDumpsFields fs ++ "\x7d"

/-- The comma-separated serializations of array elements. -/
def jsonDumpsElems : ValueList → String
  | .nil => ""
  | .cons v rest =>
    jsonDumps v ++ (match rest with | .nil => "" | .cons _ _ => ", ") ++ jsonDumpsElems rest

/-- The comma-separated serializations of object entries. -/
def jsonDumpsFields : Fields → String
  | .nil => ""
  | .cons k v rest =>
    jsonQuote k ++ ": " ++ jsonDumps v ++
      (match rest with | .nil => "" | .cons _ _ _ => ", ") ++ jsonDumpsFields rest
end

mutual
/-- Python `repr(value)` for the values of this model.  String reprs are
modelled for strings that need no quote or control-character escaping,
which is all this development evaluates. -/
def pyRepr : Value → String
  | .null => "None"
  | .bool true => "True"
  | .bool false => "False"
  | .num n => toString n
  | .str s => "\x27" ++ s ++ "\x27"
  | .arr xs => "[" ++ pyReprElems xs ++ "]"
  | .obj fs => "\x7b" ++ pyReprFields fs ++ "\x7d"

/-- The comma-separated reprs of list elements. -/
def pyReprElems : ValueList → String
  | .nil => ""
  | .cons v rest =>
    pyRepr v ++ (match rest with | .nil => "" | .cons _ _ => ", ") ++ pyReprElems rest

/-- The comma-separated reprs of dict entries. -/
def pyReprFields : Fields → String
  | .nil => ""
  | .cons k v rest =>
    "\x27" ++ k ++ "\x27: " ++ pyRepr v ++
      (match rest with | .nil => "" | .cons _ _ _ => ", ") ++ pyReprFields rest
end

/-- Python `str(value)`: identity on strings, `None`/`True`/`False`,
decimal for numbers, `repr` for containers. -/
def pyStr : Value → String
  | .null => "None"
  | .bool true => "True"
  | .bool false => "False"
  | .num n => toString n
  | .str s => s
  | v => pyRepr v

/-- `', '.join(map(str, value))` from the join branch of `flatten_dict`. -/
def joinComma (xs : ValueList) : String :=
  String.intercalate ", " (xs.toList.map pyStr)

/-- `all(isinstance(item, (str, int, float, bool)) for item in value)`. -/
def allJoinScalar (xs : ValueList) : Bool :=
  xs.toList.all isJoinScalar

/-- `f"{parent_key}{separator}{key}" if parent_key else key`: the emitted
key for one entry (an empty parent prefix is falsy in Python). -/
def mkKey (parent_key separator key : String) : String :=
  if parent_key = "" then key else parent_key ++ separator ++ key

/-- One step of building a Python dict from a pair list: `d[k] = v`. -/
def insertAssignL : List (String × Value) → String → Value → List (String × Value)
  | [], k, v => [(k, v)]
  | (k1, v1) :: rest, k, v =>
    if k1 = k then (k, v) :: rest else (k1, v1) :: insertAssignL rest k v

/-- Python `dict(items)`: the last writer of a key wins, and a key keeps
the position of its first occurrence. -/
def pyDict (items : List (String × Value)) : List (String × Value) :=
  items.foldl (fun d kv => insertAssignL d kv.1 kv.2) []

mutual
/-- The `items` list accumulated by `flatten_dict` before its final
`dict(items)`.  Recursive calls return dicts, so each nested block is
itself deduplicated (`.items()` of the recursive `flatten_dict` result). -/
def flattenItems (strategy : String) : Fields → String → String → List (String × Value)
  | .nil, _, _ => []
  | .cons key value rest, parent_key, separator =>
    flattenEntry strategy (mkKey parent_key separator key) separator value ++
      flattenItems strategy rest parent_key separator

/-- What `flatten_dict` appends to `items` for a single key/value pair
whose emitted key is `new_key`. -/
def flattenEntry (strategy : String) (new_key separator : String) : Value → List (String × Value)
  | .obj fs => pyDict (flattenItems strategy fs new_key separator)
  | .arr xs =>
    if strategy = "dot_notation" then
      if allJoinScalar xs then [(new_key, .str (joinComma xs))]
      else [(new_key, .str (jsonDumps (.arr xs)))]
    else if strategy = "separate_columns" then
      flattenIndexed strategy new_key separator 0 xs
    else [(new_key, .str (jsonDumps (.arr xs)))]
  | v => [(new_key, v)]

/-- The `separate_columns` loop: `for i, item in enumerate(value)`,
emitting `f"{new_key}_{i}"` columns. -/
def flattenIndexed (strategy : String) (new_key separator : String) : Nat → ValueList → List (String × Value)
  | _, .nil => []
  | i, .cons item rest =>
    (match item with
     | .obj fs => pyDict (flattenItems strategy fs (new_key ++ "_" ++ toString i) separator)
     | v => [(new_key ++ "_" ++ toString i, v)]) ++
      flattenIndexed strategy new_key separator (i + 1) rest
end

/-- `JSONToCSVConverter.flatten_dict(data, parent_key, separator)`:
traverse, then `return dict(items)`. -/
def flatten_dict (strategy : String) (data : Fields) (parent_key separator : String) : List (String × Value) :=
  pyDict (flattenItems strategy data parent_key separator)

/-- `flatten_dict` at its default arguments (`parent_key=''`,
`separator='.'`), i.e. the spec's `flatten(record, policy)`. -/
def flatten (strategy : String) (record : Fields) : List (String × Value) :=
  flatten_dict strategy record "" "."

/-- First occurrence lookup in a flat row (Python dict access). -/
def lookupRow : List (String × Value) → String → Option Value
  | [], _ => none
  | kv :: rest, k => if kv.1 = k then some kv.2 else lookupRow rest k

/-- The value of the last entry bound to `k` in a raw item list. -/
def lastLookup : List (String × Value) → String → Option Value
  | [], _ => none
  | kv :: rest, k =>
    match lastLookup rest k with
    | some v => some v
    | none => if kv.1 = k then some kv.2 else none

/-- Code point comparison, lexicographic, on character lists: exactly how
Python compares strings. -/
def charListLe : List Char → List Char → Bool
  | [], _ => true
  | _ :: _, [] => false
  | a :: as, b :: bs =>
    if a.toNat < b.toNat then true
    else if b.toNat < a.toNat then false
    else charListLe as bs

/-- Python's `<=` on strings (code point lexicographic order), used by
`sorted(...)` on the fieldname set. -/
def strLe (a b : String) : Bool := charListLe a.data b.data

/-- `sorted(list(fieldnames))` where `fieldnames` is the set union of the
keys of all flattened records. -/
def fieldnames (rows : List (List (String × Value))) : List String :=
  ((rows.map (fun r => r.map Prod.fst)).flatten.dedup).insertionSort
    (fun a b => strLe a b = true)

/-- How `csv.DictWriter`/`csv.writer` renders one stored value as a CSV
field: `None` becomes the empty string, any other value goes through
`str()`. -/
def csvStr : Value → String
  | .null => ""
  | v => pyStr v

/-- The row `csv.DictWriter.writerow` emits for one flat record: one field
per fieldname, missing keys filled with `restval` (the default `''`). -/
def reconcileRow (header : List String) (row : List (String × Value)) : List String :=
  header.map fun k =>
    match lookupRow row k with
    | some v => csvStr v
    | none => ""

/-- The spec's `reconcile`: the sorted fieldname union as header, plus one
aligned textual row per flat record. -/
def reconcile (rows : List (List (String × Value))) : List String × List (List String) :=
  (fieldnames rows, rows.map (reconcileRow (fieldnames rows)))

/-- The two `ValueError`s raised by `convert_with_custom_flattening`:
`"JSON must contain an object or array of objects"` and
`"No data to convert"`. -/
inductive ConvError : Type where
  | invalidInputShape : ConvError
  | emptyInput : ConvError

/-- Lines 64-67: a dict becomes a one-record list, a list stays, anything
else raises `ValueError` (the spec's `InvalidInputShape`). -/
def normalizeRecords : Value → Except ConvError (List Value)
  | .obj fs => .ok [.obj fs]
  | .arr xs => .ok xs.toList
  | _ => .error .invalidInputShape

/-- Lines 71-77: a dict record is flattened, any other record is wrapped
as the synthetic dict `{'value': record}`. -/
def flattenRecord (strategy : String) : Value → List (String × Value)
  | .obj fs => flatten strategy fs
  | v => [("value", v)]

/-- The `flattened_data` list accumulated by
`convert_with_custom_flattening`. -/
def customFlatRows (strategy : String) (records : List Value) : List (List (String × Value)) :=
  records.map (flattenRecord strategy)

/-- `JSONToCSVConverter.convert_with_custom_flattening`, minus file I/O:
normalize, flatten every record, raise on zero rows, else emit the
reconciled header and rows. -/
def convert_with_custom_flattening (strategy : String) (data : Value) :
    Except ConvError (List String × List (List String)) :=
  match normalizeRecords data with
  | .error e => .error e
  | .ok records =>
    if (customFlatRows strategy records).isEmpty then .error .emptyInput
    else .ok (reconcile (customFlatRows strategy records))

/-- Lines 139-147, for one array element: `new_record = record.copy()`,
`del new_record[array_field]`, then either merge a dict element in or
re-insert the scalar element under `array_field`. -/
def elemRecord (array_field : String) (base : Fields) : Value → Fields
  | .obj efs => base.update efs
  | v => base.insertAssign array_field v

/-- The explosion of one record on `array_field` (lines 136-151): one
result record per array element when the field holds a list, otherwise
the record unchanged. -/
def explodeRecords (array_field : String) (record : Fields) : List Fields :=
  match record.lookup array_field with
  | some (.arr xs) => xs.toList.map (elemRecord array_field (record.erase array_field))
  | _ => [record]

/-- The full guard `array_field and array_field in record and
isinstance(record[array_field], list)`: `None` and the empty string are
falsy, so both leave the record alone. -/
def explodeRecordsOpt : Option String → Fields → List Fields
  | none, record => [record]
  | some f, record => if f = "" then [record] else explodeRecords f record

/-- The `exploded_data` accumulation loop of
`convert_with_array_explosion`.  A non-dict record reaches
`record.copy()`/`flatten_dict(record)` and raises a runtime error in
Python; that is modelled as `none`. -/
def explodeFlatRows (strategy : String) (array_field : Option String) :
    List Value → Option (List (List (String × Value)))
  | [] => some []
  | .obj fs :: rest =>
    match explodeFlatRows strategy array_field rest with
    | some rows => some ((explodeRecordsOpt array_field fs).map (flatten strategy) ++ rows)
    | none => none
  | _ :: _ => none

/-- `JSONToCSVConverter.convert_with_array_explosion`, minus file I/O.
This driver has no shape check and no emptiness check: a dict is wrapped
in a list, any other value is iterated (`none` models the runtime error
raised for a non-iterable top level; iterating a string yields its
characters, so only the empty string survives, with zero records).
Note the absence of any `EmptyInput`-style failure: zero accumulated rows
still produce an (empty-header) output. -/
def convert_with_array_explosion (strategy : String) (array_field : Option String)
    (data : Value) : Option (List String × List (List String)) :=
  match data with
  | .obj fs => (explodeFlatRows strategy array_field [Value.obj fs]).map reconcile
  | .arr xs => (explodeFlatRows strategy array_field xs.toList).map reconcile
  | .str s => if s = "" then some (reconcile []) else none
  | _ => none

/-- The value of the last binding of `k` in an object (coincides with
`Fields.lookup` when keys are distinct, i.e. for every real Python dict). -/
def Fields.lookupLast : Fields → String → Option Value
  | .nil, _ => none
  | .cons k1 v rest, k =>
    match Fields.lookupLast rest k with
    | some w => some w
    | none => if k1 = k then some v else none

mutual
/-- No Array element anywhere in the value is itself an Array.  Records
satisfying this avoid the `separate_columns` branch that stores a list
element directly into the flat row. -/
def Value.noArrInArr : Value → Bool
  | .null => true
  | .bool _ => true
  | .num _ => true
  | .str _ => true
  | .arr xs => ValueList.elemsOk xs
  | .obj fs => Fields.noArrInArr fs

/-- Array elements: none is an Array, and each is itself clean. -/
def ValueList.elemsOk : ValueList → Bool
  | .nil => true
  | .cons v rest => (!v.isArr && v.noArrInArr) && ValueList.elemsOk rest

/-- Object entries: every value is clean. -/
def Fields.noArrInArr : Fields → Bool
  | .nil => true
  | .cons _ v rest => v.noArrInArr && Fields.noArrInArr rest
end

/- ------------------------------------------------------------------ -/
/- Lemmas on the Python dict model (`insertAssignL`, `pyDict`).        -/
/- ------------------------------------------------------------------ -/

theorem lookupRow_insertAssignL : ∀ (d : List (String × Value)) (k : String) (v : Value)
    (k2 : String),
    lookupRow (insertAssignL d k v) k2 = if k = k2 then some v else lookupRow d k2
  | [], k, v, k2 => by by_cases hk : k = k2 <;> simp [insertAssignL, lookupRow, hk]
  | (k1, v1) :: rest, k, v, k2 => by
    by_cases h : k1 = k
    · subst h
      by_cases hk : k1 = k2 <;> simp [insertAssignL, lookupRow, hk]
    · by_cases h1 : k1 = k2
      · have hk : ¬k = k2 := fun hh => h (h1.trans hh.symm)
        subst h1
        simp [insertAssignL, h, lookupRow, hk]
      · simp [insertAssignL, h, lookupRow, h1, lookupRow_insertAssignL rest k v k2]

theorem mem_insertAssignL : ∀ {d : List (String × Value)} {k : String} {v : Value}
    {kv2 : String × Value}, kv2 ∈ insertAssignL d k v → kv2 ∈ d ∨ kv2 = (k, v)
  | [], k, v, kv2, h => by simpa [insertAssignL] using h
  | (k1, v1) :: rest, k, v, kv2, h => by
    by_cases h1 : k1 = k
    · simp only [insertAssignL, if_pos h1, List.mem_cons] at h
      rcases h with h | h
      · exact Or.inr h
      · exact Or.inl (List.mem_cons_of_mem _ h)
    · simp only [insertAssignL, if_neg h1, List.mem_cons] at h
      rcases h with h | h
      · exact Or.inl (by simp [h])
      · rcases mem_insertAssignL h with h2 | h2
        · exact Or.inl (List.mem_cons_of_mem _ h2)
        · exact Or.inr h2

theorem insertAssignL_of_not_mem : ∀ {d : List (String × Value)} {k : String},
    k ∉ d.map Prod.fst → ∀ v : Value, insertAssignL d k v = d ++ [(k, v)]
  | [], _, _, _ => rfl
  | (k1, v1) :: rest, k, h, v => by
    have h1 : ¬k1 = k := fun hh => h (by simp [hh])
    have h2 : k ∉ rest.map Prod.fst := fun hh => h (by simp [hh])
    simp [insertAssignL, h1, insertAssignL_of_not_mem h2 v]

theorem foldl_insertAssignL_of_nodup : ∀ (rest acc : List (String × Value)),
    ((acc ++ rest).map Prod.fst).Nodup →
    rest.foldl (fun d kv => insertAssignL d kv.1 kv.2) acc = acc ++ rest
  | [], acc, _ => by simp
  | (k1, v1) :: rest, acc, h => by
    have hnotin : k1 ∉ acc.map Prod.fst := by
      simp only [List.map_append, List.map_cons, List.nodup_append] at h
      intro hmem
      exact h.2.2 hmem (by simp)
    have h2 : (((acc ++ [(k1, v1)]) ++ rest).map Prod.fst).Nodup := by
      simpa [List.append_assoc] using h
    calc ((k1, v1) :: rest).foldl (fun d kv => insertAssignL d kv.1 kv.2) acc
        = rest.foldl (fun d kv => insertAssignL d kv.1 kv.2) (insertAssignL acc k1 v1) := rfl
      _ = rest.foldl (fun d kv => insertAssignL d kv.1 kv.2) (acc ++ [(k1, v1)]) := by
          rw [insertAssignL_of_not_mem hnotin]
      _ = (acc ++ [(k1, v1)]) ++ rest := foldl_insertAssignL_of_nodup rest _ h2
      _ = acc ++ (k1, v1) :: rest := by simp

theorem pyDict_of_nodup {d : List (String × Value)} (h : (d.map Prod.fst).Nodup) :
    pyDict d = d := by
  simpa using foldl_insertAssignL_of_nodup d [] (by simpa using h)

theorem mem_foldl_insertAssignL : ∀ {items acc : List (String × Value)}
    {kv : String × Value},
    kv ∈ items.foldl (fun d kv => insertAssignL d kv.1 kv.2) acc → kv ∈ acc ∨ kv ∈ items
  | [], _, _, h => Or.inl h
  | kv1 :: rest, acc, kv, h => by
    rw [List.foldl_cons] at h
    rcases mem_foldl_insertAssignL h with h2 | h2
    · rcases mem_insertAssignL h2 with h3 | h3
      · exact Or.inl h3
      · exact Or.inr (by simp [h3])
    · exact Or.inr (List.mem_cons_of_mem _ h2)

theorem mem_pyDict {items : List (String × Value)} {kv : String × Value}
    (h : kv ∈ pyDict items) : kv ∈ items := by
  rcases mem_foldl_insertAssignL h with h2 | h2
  · simp at h2
  · exact h2

theorem lookupRow_foldl_insertAssignL : ∀ (items d : List (String × Value)) (k : String),
    lookupRow (items.foldl (fun d kv => insertAssignL d kv.1 kv.2) d) k =
      match lastLookup items k with
      | some v => some v
      | none => lookupRow d k
  | [], d, k => by simp [lastLookup]
  | kv :: rest, d, k => by
    calc lookupRow ((kv :: rest).foldl (fun d kv => insertAssignL d kv.1 kv.2) d) k
        = lookupRow (rest.foldl (fun d kv => insertAssignL d kv.1 kv.2)
            (insertAssignL d kv.1 kv.2)) k := rfl
      _ = match lastLookup rest k with
          | some v => some v
          | none => lookupRow (insertAssignL d kv.1 kv.2) k :=
          lookupRow_foldl_insertAssignL rest _ k
      _ = match lastLookup (kv :: rest) k with
          | some v => some v
          | none => lookupRow d k := by
          rw [lookupRow_insertAssignL]
          simp only [lastLookup]
          rcases hrest : lastLookup rest k with _ | w
          · by_cases hk : kv.1 = k <;> simp [hk]
          · simp

theorem lookupRow_pyDict (items : List (String × Value)) (k : String) :
    lookupRow (pyDict items) k = lastLookup items k := by
  have h := lookupRow_foldl_insertAssignL items [] k
  rcases hl : lastLookup items k with _ | v
  · rw [hl] at h
    simpa [pyDict, lookupRow] using h
  · rw [hl] at h
    simpa [pyDict] using h

/- ------------------------------------------------------------------ -/
/- Lemmas on the dict operations used by the row exploder.             -/
/- ------------------------------------------------------------------ -/

theorem Fields.lookup_insertAssign : ∀ (fs : Fields) (k : String) (v : Value) (k2 : String),
    (fs.insertAssign k v).lookup k2 = if k = k2 then some v else fs.lookup k2
  | .nil, k, v, k2 => by by_cases hk : k = k2 <;> simp [Fields.insertAssign, Fields.lookup, hk]
  | .cons k1 v1 rest, k, v, k2 => by
    by_cases h : k1 = k
    · subst h
      by_cases hk : k1 = k2 <;> simp [Fields.insertAssign, Fields.lookup, hk]
    · by_cases h1 : k1 = k2
      · have hk : ¬k = k2 := fun hh => h (h1.trans hh.symm)
        subst h1
        simp [Fields.insertAssign, h, Fields.lookup, hk]
      · simp [Fields.insertAssign, h, Fields.lookup, h1,
          Fields.lookup_insertAssign rest k v k2]

theorem Fields.keys_cons (k1 : String) (v1 : Value) (rest : Fields) :
    (Fields.cons k1 v1 rest).keys = k1 :: rest.keys := rfl

theorem Fields.lookup_erase : ∀ (fs : Fields) (ka k2 : String),
    (fs.erase ka).lookup k2 = if k2 = ka then none else fs.lookup k2
  | .nil, ka, k2 => by by_cases h : k2 = ka <;> simp [Fields.erase, Fields.lookup, h]
  | .cons k1 v1 rest, ka, k2 => by
    by_cases h : k1 = ka
    · subst h
      rw [show (Fields.cons k1 v1 rest).erase k1 = rest.erase k1 from by
        simp [Fields.erase]]
      rw [Fields.lookup_erase rest k1 k2]
      by_cases hk : k2 = k1
      · simp [hk]
      · have h3 : ¬k1 = k2 := fun hh => hk hh.symm
        simp [hk, Fields.lookup, h3]
    · rw [show (Fields.cons k1 v1 rest).erase ka = .cons k1 v1 (rest.erase ka) from by
        simp [Fields.erase, h]]
      by_cases hk : k1 = k2
      · have h2 : ¬k2 = ka := fun hh => h (hk.trans hh)
        simp [Fields.lookup, hk, h2]
      · simp [Fields.lookup, hk, Fields.lookup_erase rest ka k2]

theorem Fields.insertAssign_of_lookup_none : ∀ {fs : Fields} {k : String},
    fs.lookup k = none → ∀ v : Value, fs.insertAssign k v = fs.push k v
  | .nil, _, _, _ => rfl
  | .cons k1 v1 rest, k, h, v => by
    simp only [Fields.lookup] at h
    by_cases h1 : k1 = k
    · simp [h1] at h
    · rw [if_neg h1] at h
      simp [Fields.insertAssign, h1, Fields.push, Fields.insertAssign_of_lookup_none h v]

theorem Fields.lookupLast_eq_none_iff : ∀ (fs : Fields) (k : String),
    fs.lookupLast k = none ↔ k ∉ fs.keys
  | .nil, k => by simp [Fields.lookupLast, Fields.keys, Fields.toList]
  | .cons k1 v1 rest, k => by
    simp only [Fields.lookupLast, Fields.keys_cons]
    rcases hrest : rest.lookupLast k with _ | w
    · have hmem : k ∉ rest.keys := (Fields.lookupLast_eq_none_iff rest k).mp hrest
      by_cases h : k1 = k
      · simp [h, List.mem_cons]
      · simp [h, List.mem_cons, hmem, Ne.symm h]
    · have hmem : k ∈ rest.keys := by
        by_contra hc
        have h2 := (Fields.lookupLast_eq_none_iff rest k).mpr hc
        rw [h2] at hrest
        simp at hrest
      simp [List.mem_cons, hmem]

theorem Fields.lookupLast_eq_lookup_of_nodup : ∀ {fs : Fields}, fs.keys.Nodup →
    ∀ k : String, fs.lookupLast k = fs.lookup k
  | .nil, _, k => rfl
  | .cons k1 v1 rest, h, k => by
    have hcons : (k1 :: rest.keys).Nodup := by
      rw [← Fields.keys_cons k1 v1 rest]
      exact h
    have hsplit := List.nodup_cons.mp hcons
    have hk1 : k1 ∉ rest.keys := hsplit.1
    have hr : rest.keys.Nodup := hsplit.2
    simp only [Fields.lookupLast, Fields.lookup]
    by_cases hk : k1 = k
    · subst hk
      rw [(Fields.lookupLast_eq_none_iff rest k1).mpr hk1]
      simp
    · rcases hrest : rest.lookupLast k with _ | w
      · have h2 : rest.lookup k = none := by
          rw [← Fields.lookupLast_eq_lookup_of_nodup hr k, hrest]
        simp [hk, h2]
      · have h2 := Fields.lookupLast_eq_lookup_of_nodup hr k
        rw [hrest] at h2
        simp [hk, ← h2]

theorem Fields.lookup_update : ∀ (e base : Fields) (k : String),
    (base.update e).lookup k =
      match e.lookupLast k with
      | some v => some v
      | none => base.lookup k
  | .nil, base, k => by simp [Fields.update, Fields.lookupLast]
  | .cons k1 v1 rest, base, k => by
    calc (base.update (.cons k1 v1 rest)).lookup k
        = ((base.insertAssign k1 v1).update rest).lookup k := rfl
      _ = match rest.lookupLast k with
          | some v => some v
          | none => (base.insertAssign k1 v1).lookup k := Fields.lookup_update rest _ k
      _ = match (Fields.cons k1 v1 rest).lookupLast k with
          | some v => some v
          | none => base.lookup k := by
          rw [Fields.lookup_insertAssign]
          simp only [Fields.lookupLast]
          rcases hrest : rest.lookupLast k with _ | w
          · by_cases hk : k1 = k <;> simp [hk]
          · simp

/- ------------------------------------------------------------------ -/
/- The code point lexicographic order used on fieldnames.              -/
/- ------------------------------------------------------------------ -/

theorem charListLe_total : ∀ a b : List Char, charListLe a b = true ∨ charListLe b a = true
  | [], b => Or.inl (by cases b <;> rfl)
  | a :: as, [] => Or.inr rfl
  | a :: as, b :: bs => by
    rcases Nat.lt_trichotomy a.toNat b.toNat with h | h | h
    · left
      simp [charListLe, h]
    · rcases charListLe_total as bs with hh | hh
      · left
        simp [charListLe, h, Nat.lt_irrefl, hh]
      · right
        simp [charListLe, h.symm, Nat.lt_irrefl, hh]
    · right
      simp [charListLe, h]

theorem charListLe_trans : ∀ a b c : List Char,
    charListLe a b = true → charListLe b c = true → charListLe a c = true
  | [], _, c, _, _ => by cases c <;> rfl
  | a :: as, [], _, h1, _ => by simp [charListLe] at h1
  | a :: as, b :: bs, [], _, h2 => by simp [charListLe] at h2
  | a :: as, b :: bs, c :: cs, h1, h2 => by
    rcases Nat.lt_trichotomy a.toNat b.toNat with h | h | h
    · rcases Nat.lt_trichotomy b.toNat c.toNat with hc | hc | hc
      · simp [charListLe, Nat.lt_trans h hc]
      · simp [charListLe, hc ▸ h]
      · simp [charListLe, Nat.lt_asymm hc, hc] at h2
    · have h1r : charListLe as bs = true := by
        simpa [charListLe, h, Nat.lt_irrefl] using h1
      rcases Nat.lt_trichotomy b.toNat c.toNat with hc | hc | hc
      · simp [charListLe, h ▸ hc]
      · have h2r : charListLe bs cs = true := by
          simpa [charListLe, hc, Nat.lt_irrefl] using h2
        simp [charListLe, h.trans hc, Nat.lt_irrefl, charListLe_trans as bs cs h1r h2r]
      · simp [charListLe, Nat.lt_asymm hc, hc] at h2
    · simp [charListLe, Nat.lt_asymm h, h] at h1

theorem strLe_total (a b : String) : strLe a b = true ∨ strLe b a = true :=
  charListLe_total a.data b.data

theorem strLe_trans {a b c : String} (h1 : strLe a b = true) (h2 : strLe b c = true) :
    strLe a c = true :=
  charListLe_trans a.data b.data c.data h1 h2

instance : IsTotal String (fun a b => strLe a b = true) := ⟨strLe_total⟩

instance : IsTrans String (fun a b => strLe a b = true) := ⟨fun _ _ _ => strLe_trans⟩

/- ------------------------------------------------------------------ -/
/- Which values can appear in a flat row.                              -/
/- ------------------------------------------------------------------ -/

mutual
theorem flattenItems_scalar : ∀ (strategy : String) (data : Fields) (p sep : String),
    (strategy ≠ "separate_columns" ∨ data.noArrInArr = true) →
    ∀ kv ∈ flattenItems strategy data p sep, kv.2.isScalar = true
  | _, .nil, _, _, _ => by simp [flattenItems]
  | strategy, .cons key value rest, p, sep, h => by
    intro kv hkv
    have hv : strategy ≠ "separate_columns" ∨ value.noArrInArr = true := by
      rcases h with h | h
      · exact Or.inl h
      · simp only [Fields.noArrInArr, Bool.and_eq_true] at h
        exact Or.inr h.1
    have hr : strategy ≠ "separate_columns" ∨ rest.noArrInArr = true := by
      rcases h with h | h
      · exact Or.inl h
      · simp only [Fields.noArrInArr, Bool.and_eq_true] at h
        exact Or.inr h.2
    simp only [flattenItems] at hkv
    rcases List.mem_append.mp hkv with h2 | h2
    · exact flattenEntry_scalar strategy (mkKey p sep key) sep value hv kv h2
    · exact flattenItems_scalar strategy rest p sep hr kv h2
termination_by strategy data p sep => sizeOf data

theorem flattenEntry_scalar : ∀ (strategy nk sep : String) (v : Value),
    (strategy ≠ "separate_columns" ∨ v.noArrInArr = true) →
    ∀ kv ∈ flattenEntry strategy nk sep v, kv.2.isScalar = true
  | strategy, nk, sep, .obj fs, h, kv, hkv => by
    have h2 : strategy ≠ "separate_columns" ∨ fs.noArrInArr = true := by
      rcases h with h | h
      · exact Or.inl h
      · exact Or.inr (by simpa [Value.noArrInArr] using h)
    have hkv2 : kv ∈ flattenItems strategy fs nk sep :=
      mem_pyDict (by simpa [flattenEntry] using hkv)
    exact flattenItems_scalar strategy fs nk sep h2 kv hkv2
  | strategy, nk, sep, .arr xs, h, kv, hkv => by
    by_cases hd : strategy = "dot_notation"
    · by_cases hj : allJoinScalar xs
      · have he : flattenEntry strategy nk sep (.arr xs) = [(nk, Value.str (joinComma xs))] := by
          simp [flattenEntry, hd, hj]
        rw [he] at hkv
        simp only [List.mem_singleton] at hkv
        simp [hkv, Value.isScalar]
      · have he : flattenEntry strategy nk sep (.arr xs) =
            [(nk, Value.str (jsonDumps (.arr xs)))] := by
          simp [flattenEntry, hd, hj]
        rw [he] at hkv
        simp only [List.mem_singleton] at hkv
        simp [hkv, Value.isScalar]
    · by_cases hs : strategy = "separate_columns"
      · rcases h with h | h
        · exact absurd hs h
        · have hok : ValueList.elemsOk xs = true := by
            simpa [Value.noArrInArr] using h
          have hkv2 : kv ∈ flattenIndexed strategy nk sep 0 xs := by
            simpa [flattenEntry, hd, hs] using hkv
          exact flattenIndexed_scalar strategy nk sep 0 xs hok kv hkv2
      · have he : flattenEntry strategy nk sep (.arr xs) =
            [(nk, Value.str (jsonDumps (.arr xs)))] := by
          simp [flattenEntry, hd, hs]
        rw [he] at hkv
        simp only [List.mem_singleton] at hkv
        simp [hkv, Value.isScalar]
  | strategy, nk, sep, .null, _, kv, hkv => by
    simp only [flattenEntry, List.mem_singleton] at hkv
    simp [hkv, Value.isScalar]
  | strategy, nk, sep, .bool b, _, kv, hkv => by
    simp only [flattenEntry, List.mem_singleton] at hkv
    simp [hkv, Value.isScalar]
  | strategy, nk, sep, .num n, _, kv, hkv => by
    simp only [flattenEntry, List.mem_singleton] at hkv
    simp [hkv, Value.isScalar]
  | strategy, nk, sep, .str s, _, kv, hkv => by
    simp only [flattenEntry, List.mem_singleton] at hkv
    simp [hkv, Value.isScalar]
termination_by strategy nk sep v => sizeOf v

theorem flattenIndexed_scalar : ∀ (strategy nk sep : String) (i : Nat) (xs : ValueList),
    ValueList.elemsOk xs = true →
    ∀ kv ∈ flattenIndexed strategy nk sep i xs, kv.2.isScalar = true
  | _, _, _, _, .nil, _, kv, hkv => by simp [flattenIndexed] at hkv
  | strategy, nk, sep, i, .cons (.obj fs) rest, h, kv, hkv => by
    have hr : ValueList.elemsOk rest = true ∧ Fields.noArrInArr fs = true := by
      simpa [ValueList.elemsOk, Value.isArr, Value.noArrInArr, and_comm] using h
    have he : flattenIndexed strategy nk sep i (.cons (.obj fs) rest) =
        pyDict (flattenItems strategy fs (nk ++ "_" ++ toString i) sep) ++
          flattenIndexed strategy nk sep (i + 1) rest := rfl
    rw [he] at hkv
    rcases List.mem_append.mp hkv with h2 | h2
    · exact flattenItems_scalar strategy fs _ sep (Or.inr hr.2) kv (mem_pyDict h2)
    · exact flattenIndexed_scalar strategy nk sep (i + 1) rest hr.1 kv h2
  | strategy, nk, sep, i, .cons (.arr xs2) rest, h, kv, hkv => by
    simp [ValueList.elemsOk, Value.isArr] at h
  | strategy, nk, sep, i, .cons .null rest, h, kv, hkv => by
    have hr : ValueList.elemsOk rest = true := by
      simpa [ValueList.elemsOk, Value.isArr, Value.noArrInArr] using h
    have he : flattenIndexed strategy nk sep i (.cons .null rest) =
        [(nk ++ "_" ++ toString i, Value.null)] ++
          flattenIndexed strategy nk sep (i + 1) rest := rfl
    rw [he] at hkv
    rcases List.mem_append.mp hkv with h2 | h2
    · simp only [List.mem_singleton] at h2
      simp [h2, Value.isScalar]
    · exact flattenIndexed_scalar strategy nk sep (i + 1) rest hr kv h2
  | strategy, nk, sep, i, .cons (.bool b) rest, h, kv, hkv => by
    have hr : ValueList.elemsOk rest = true := by
      simpa [ValueList.elemsOk, Value.isArr, Value.noArrInArr] using h
    have he : flattenIndexed strategy nk sep i (.cons (.bool b) rest) =
        [(nk ++ "_" ++ toString i, Value.bool b)] ++
          flattenIndexed strategy nk sep (i + 1) rest := rfl
    rw [he] at hkv
    rcases List.mem_append.mp hkv with h2 | h2
    · simp only [List.mem_singleton] at h2
      simp [h2, Value.isScalar]
    · exact flattenIndexed_scalar strategy nk sep (i + 1) rest hr kv h2
  | strategy, nk, sep, i, .cons (.num n) rest, h, kv, hkv => by
    have hr : ValueList.elemsOk rest = true := by
      simpa [ValueList.elemsOk, Value.isArr, Value.noArrInArr] using h
    have he : flattenIndexed strategy nk sep i (.cons (.num n) rest) =
        [(nk ++ "_" ++ toString i, Value.num n)] ++
          flattenIndexed strategy nk sep (i + 1) rest := rfl
    rw [he] at hkv
    rcases List.mem_append.mp hkv with h2 | h2
    · simp only [List.mem_singleton] at h2
      simp [h2, Value.isScalar]
    · exact flattenIndexed_scalar strategy nk sep (i + 1) rest hr kv h2
  | strategy, nk, sep, i, .cons (.str s) rest, h, kv, hkv => by
    have hr : ValueList.elemsOk rest = true := by
      simpa [ValueList.elemsOk, Value.isArr, Value.noArrInArr] using h
    have he : flattenIndexed strategy nk sep i (.cons (.str s) rest) =
        [(nk ++ "_" ++ toString i, Value.str s)] ++
          flattenIndexed strategy nk sep (i + 1) rest := rfl
    rw [he] at hkv
    rcases List.mem_append.mp hkv with h2 | h2
    · simp only [List.mem_singleton] at h2
      simp [h2, Value.isScalar]
    · exact flattenIndexed_scalar strategy nk sep (i + 1) rest hr kv h2
termination_by strategy nk sep i xs => sizeOf xs
end

/- ------------------------------------------------------------------ -/
/- Flattening an already-flat record.                                  -/
/- ------------------------------------------------------------------ -/

theorem flattenEntry_of_scalar (strategy nk sep : String) {v : Value}
    (h : v.isScalar = true) : flattenEntry strategy nk sep v = [(nk, v)] := by
  cases v <;> first
    | rfl
    | simp [Value.isScalar] at h

theorem flattenItems_flat : ∀ (strategy : String) (data : Fields),
    (∀ kv ∈ data.toList, kv.2.isScalar = true) →
    flattenItems strategy data "" "." = data.toList
  | _, .nil, _ => rfl
  | strategy, .cons key value rest, h => by
    have hv : value.isScalar = true := h (key, value) (by simp [Fields.toList])
    have hr : ∀ kv ∈ rest.toList, kv.2.isScalar = true := fun kv hkv =>
      h kv (by simp [Fields.toList, hkv])
    simp only [flattenItems, mkKey, if_pos]
    rw [flattenEntry_of_scalar strategy key "." hv]
    rw [flattenItems_flat strategy rest hr]
    simp [Fields.toList]

/- ------------------------------------------------------------------ -/
/- Claim theorems.                                                     -/
/- ------------------------------------------------------------------ -/

/-- Claim C1 is false as stated: under the `separate_columns` strategy
(`SeparateIndexedColumns`), flattening `{"a": [[]]}` stores the inner
Array value itself in the flat row at key `a_0`, so a FlatRow can contain
a nested Array value directly. -/
theorem C1_counterexample :
    lookupRow (flatten "separate_columns"
      (Fields.cons "a" (.arr (.cons (.arr .nil) .nil)) .nil)) "a_0" =
        some (Value.arr .nil) ∧
    Value.isScalar (Value.arr .nil) = false :=
  ⟨rfl, rfl⟩

/-- Claim C1 (amended): for every record and policy, every value stored in
the FlatRow produced by `flatten` is a scalar (Null/Boolean/Number/Text,
serialized forms being Text), except that under `SeparateIndexedColumns`
an array element that is itself an Array is stored directly; so the
invariant holds for every policy other than `separate_columns`, and under
`separate_columns` it holds for records in which no Array element is
itself an Array. -/
theorem C1_amended_flatrow_values_scalar (strategy : String) (record : Fields)
    (h : strategy ≠ "separate_columns" ∨ record.noArrInArr = true) :
    ∀ kv ∈ flatten strategy record, kv.2.isScalar = true := by
  intro kv hkv
  exact flattenItems_scalar strategy record "" "." h kv
    (mem_pyDict (by simpa [flatten, flatten_dict] using hkv))

/-- Witness for C1 (amended) on `{"a": {"b": 1}, "t": [1, 2]}` under
`dot_notation`: the joined-Text value at `t` is a scalar. -/
theorem C1_amended_flatrow_values_scalar_witness :
    Value.isScalar (Value.str "1, 2") = true :=
  C1_amended_flatrow_values_scalar "dot_notation"
    (Fields.cons "a" (.obj (.cons "b" (.num 1) .nil))
      (.cons "t" (.arr (.cons (.num 1) (.cons (.num 2) .nil))) .nil))
    (Or.inl (by decide))
    ("t", Value.str "1, 2") (by decide)

/-- Claim C3 is false as stated: an empty Array at a leaf is only dropped
under `separate_columns`; under `dot_notation` the flattener emits the
key with the empty joined Text, and under the serializing strategies it
emits the key with the Text `"[]"`. -/
theorem C3_counterexample :
    flatten "dot_notation" (Fields.cons "a" (.arr .nil) .nil) = [("a", Value.str "")] ∧
    flatten "json_string" (Fields.cons "a" (.arr .nil) .nil) = [("a", Value.str "[]")] :=
  ⟨rfl, rfl⟩

/-- Claim C3 (amended): an empty Object at a leaf path is silently dropped
under every policy; an empty Array is dropped only under
`SeparateIndexedColumns` — under `DotJoinOrSerialize` it emits one entry
holding the empty Text, and under every other policy (`SerializeAlways`)
one entry holding the Text `"[]"`. -/
theorem C3_amended_empty_leaf (strategy nk sep : String) :
    flattenEntry strategy nk sep (.obj .nil) = [] ∧
    flattenEntry "separate_columns" nk sep (.arr .nil) = [] ∧
    flattenEntry "dot_notation" nk sep (.arr .nil) = [(nk, Value.str "")] ∧
    (strategy ≠ "dot_notation" → strategy ≠ "separate_columns" →
      flattenEntry strategy nk sep (.arr .nil) = [(nk, Value.str "[]")]) := by
  refine ⟨rfl, rfl, rfl, fun h1 h2 => ?_⟩
  simp [flattenEntry, h1, h2, jsonDumps, jsonDumpsElems]

/-- Witness for C3 (amended) under the `json_string` strategy. -/
theorem C3_amended_empty_leaf_witness :
    flattenEntry "json_string" "a" "." (.arr .nil) = [("a", Value.str "[]")] :=
  (C3_amended_empty_leaf "json_string" "a" ".").2.2.2 (by decide) (by decide)

/-- Claim C4 is false as stated: `[null]` consists only of scalars
(Null is a scalar), yet `dot_notation` flattening of `{"a": [null]}`
emits the JSON serialization `"[null]"`, not the `", "`-join (`None` is
not an instance of `str`/`int`/`float`/`bool`, so the join guard fails). -/
theorem C4_counterexample :
    flatten "dot_notation" (Fields.cons "a" (.arr (.cons .null .nil)) .nil) =
      [("a", Value.str (jsonDumps (.arr (.cons .null .nil))))] ∧
    jsonDumps (.arr (.cons .null .nil)) ≠ joinComma (.cons .null .nil) ∧
    Value.isScalar .null = true :=
  ⟨rfl, by decide, rfl⟩

/-- Claim C4 (amended): under `DotJoinOrSerialize`, for every key holding
a non-empty Array: if every element is a Boolean/Number/Text scalar (a
Null element does not pass the join guard), exactly one entry is emitted
whose value is the elements rendered with `str()` and joined by `", "`;
otherwise exactly one entry is emitted whose value is the JSON
serialization of the whole array. -/
theorem C4_amended_join_or_serialize (nk sep : String) (xs : ValueList)
    (_hne : xs ≠ .nil) :
    (allJoinScalar xs = true →
      flattenEntry "dot_notation" nk sep (.arr xs) = [(nk, Value.str (joinComma xs))]) ∧
    (allJoinScalar xs = false →
      flattenEntry "dot_notation" nk sep (.arr xs) =
        [(nk, Value.str (jsonDumps (.arr xs)))]) := by
  constructor
  · intro hj
    simp [flattenEntry, hj]
  · intro hj
    simp [flattenEntry, hj]

/-- Witness for C4 (amended) on `{"tags": ["a", "b"]}`. -/
theorem C4_amended_join_or_serialize_witness :
    flattenEntry "dot_notation" "tags" "." (.arr (.cons (.str "a") (.cons (.str "b") .nil))) =
      [("tags", Value.str "a, b")] :=
  (C4_amended_join_or_serialize "tags" "." (.cons (.str "a") (.cons (.str "b") .nil))
    (by decide)).1 (by decide)

/-- Claim C8: for every already-flat record (all values scalar) and every
policy, `flatten` returns exactly the input mapping: same keys, same
values, in the same order. -/
theorem C8_flatten_idempotent_on_flat (strategy : String) (record : Fields)
    (hn : record.keys.Nodup) (hflat : ∀ kv ∈ record.toList, kv.2.isScalar = true) :
    flatten strategy record = record.toList := by
  have h1 : flatten strategy record = pyDict record.toList := by
    unfold flatten flatten_dict
    rw [flattenItems_flat strategy record hflat]
  rw [h1]
  exact pyDict_of_nodup hn

/-- Witness for C8 on the flat record `{"id": 1, "name": "Ada"}`. -/
theorem C8_flatten_idempotent_on_flat_witness :
    flatten "separate_columns" (Fields.cons "id" (.num 1) (.cons "name" (.str "Ada") .nil)) =
      [("id", Value.num 1), ("name", Value.str "Ada")] :=
  C8_flatten_idempotent_on_flat "separate_columns"
    (Fields.cons "id" (.num 1) (.cons "name" (.str "Ada") .nil)) (by decide) (by decide)

/-- Claim C9: when distinct input paths collide on one flattened key,
`flatten` raises no error (it is a total function) and the final
`dict(items)` binds every key to the value of the last entry of the
traversal: for every record, policy and key, looking the key up in the
flat row gives exactly the last value the traversal emitted for it
(last-writer-wins). -/
theorem C9_last_writer_wins (strategy : String) (record : Fields) (k : String) :
    lookupRow (flatten strategy record) k =
      lastLookup (flattenItems strategy record "" ".") k :=
  lookupRow_pyDict (flattenItems strategy record "" ".") k

/-- Claim C5: for every sequence of flat rows, the header is the
lexicographically sorted (code point order), duplicate-free union of all
keys of all rows; there is one output row per input row; every output row
has exactly `len(header)` fields; and a key absent from a given row is
rendered as the empty string (the `csv.DictWriter` default `restval`),
not as a null marker. -/
theorem C5_reconcile_header_and_rows (rows : List (List (String × Value))) :
    (fieldnames rows).Sorted (fun a b => strLe a b = true) ∧
    (fieldnames rows).Nodup ∧
    (∀ k, k ∈ fieldnames rows ↔ ∃ r ∈ rows, k ∈ r.map Prod.fst) ∧
    (reconcile rows).2.length = rows.length ∧
    (∀ r ∈ rows, (reconcileRow (fieldnames rows) r).length = (fieldnames rows).length) ∧
    (∀ r ∈ rows, ∀ (i : Nat) (k : String), (fieldnames rows)[i]? = some k →
      lookupRow r k = none →
      (reconcileRow (fieldnames rows) r)[i]? = some "") := by
  refine ⟨?_, ?_, ?_, ?_, ?_, ?_⟩
  · exact List.sorted_insertionSort _ _
  · exact (List.perm_insertionSort (fun a b => strLe a b = true) _).nodup_iff.mpr
      (List.nodup_dedup _)
  · intro k
    unfold fieldnames
    rw [(List.perm_insertionSort _ _).mem_iff, List.mem_dedup, List.mem_flatten]
    constructor
    · rintro ⟨l, hl, hkl⟩
      rw [List.mem_map] at hl
      obtain ⟨r, hr, rfl⟩ := hl
      exact ⟨r, hr, hkl⟩
    · rintro ⟨r, hr, hk⟩
      exact ⟨r.map Prod.fst, List.mem_map_of_mem _ hr, hk⟩
  · simp [reconcile]
  · intro r _
    simp [reconcileRow]
  · intro r _ i k hik hlk
    simp only [reconcileRow, List.getElem?_map, hik]
    simp [hlk]

/-- Witness for C5 on the spec example `[{"a": 1}, {"b": 2}]`: the first
row renders the absent key `b` (position 1 of the header) as `""`. -/
theorem C5_reconcile_header_and_rows_witness :
    (reconcileRow (fieldnames [[("a", Value.num 1)], [("b", Value.num 2)]])
      [("a", Value.num 1)])[1]? = some "" :=
  (C5_reconcile_header_and_rows [[("a", Value.num 1)], [("b", Value.num 2)]]).2.2.2.2.2
    [("a", Value.num 1)] (by decide) 1 "b" (by decide) (by decide)

/-- Claim C6: when `field` holds an array of length K, explosion yields
exactly K records; for a scalar element the result record is the original
record with `field` removed and re-appended holding that element (all
other fields unchanged); for an Object element the result record is the
base merged with the element's entries, the element's keys taking
precedence on collision. -/
theorem C6_explode_array_field (record : Fields) (f : String) (xs : ValueList)
    (hf : record.lookup f = some (.arr xs)) :
    (explodeRecords f record).length = xs.toList.length ∧
    (∀ (i : Nat) (e : Value), xs.toList[i]? = some e →
      (e.isScalar = true →
        (explodeRecords f record)[i]? = some (((record.erase f).push f e))) ∧
      (∀ efs, e = Value.obj efs →
        (explodeRecords f record)[i]? = some ((record.erase f).update efs) ∧
        (efs.keys.Nodup → ∀ k,
          ((record.erase f).update efs).lookup k =
            match efs.lookup k with
            | some v => some v
            | none => (record.erase f).lookup k))) := by
  have he : explodeRecords f record = xs.toList.map (elemRecord f (record.erase f)) := by
    simp [explodeRecords, hf]
  constructor
  · simp [he]
  · intro i e hie
    constructor
    · intro hes
      rw [he, List.getElem?_map, hie, Option.map_some']
      have hbase : (record.erase f).lookup f = none := by
        rw [Fields.lookup_erase]
        simp
      have helem : elemRecord f (record.erase f) e = (record.erase f).insertAssign f e := by
        cases e <;> first
          | rfl
          | simp [Value.isScalar] at hes
      rw [helem, Fields.insertAssign_of_lookup_none hbase]
    · intro efs hobj
      subst hobj
      refine ⟨?_, ?_⟩
      · rw [he, List.getElem?_map, hie]
        rfl
      · intro hnd k
        rw [Fields.lookup_update, Fields.lookupLast_eq_lookup_of_nodup hnd k]

/-- Witness for C6 on `{"x": 5, "c": [7]}` exploded on `c`. -/
theorem C6_explode_array_field_witness :
    (explodeRecords "c"
      (Fields.cons "x" (.num 5) (.cons "c" (.arr (.cons (.num 7) .nil)) .nil)))[0]? =
      some (((Fields.cons "x" (.num 5)
        (.cons "c" (.arr (.cons (.num 7) .nil)) .nil)).erase "c").push "c" (.num 7)) :=
  ((C6_explode_array_field
      (Fields.cons "x" (.num 5) (.cons "c" (.arr (.cons (.num 7) .nil)) .nil)) "c"
      (.cons (.num 7) .nil) (by decide)).2 0 (.num 7) (by decide)).1 (by decide)

/-- Claim C7: the custom conversion fails with `InvalidInputShape` exactly
when the top level is neither an Object nor an Array; a non-Object record
inside a top-level array is not rejected but wrapped as the synthetic
record `{"value": element}`. -/
theorem C7_invalid_shape_iff (strategy : String) (data : Value) :
    (convert_with_custom_flattening strategy data = .error .invalidInputShape ↔
      data.isObj = false ∧ data.isArr = false) ∧
    (∀ v : Value, v.isObj = false → flattenRecord strategy v = [("value", v)]) := by
  constructor
  · cases data with
    | arr xs =>
      cases xs <;>
        simp [convert_with_custom_flattening, normalizeRecords, customFlatRows,
          Value.isObj, Value.isArr, ValueList.toList]
    | obj fs =>
      simp [convert_with_custom_flattening, normalizeRecords, customFlatRows,
        Value.isObj, Value.isArr]
    | null =>
      simp [convert_with_custom_flattening, normalizeRecords, Value.isObj, Value.isArr]
    | bool b =>
      simp [convert_with_custom_flattening, normalizeRecords, Value.isObj, Value.isArr]
    | num n =>
      simp [convert_with_custom_flattening, normalizeRecords, Value.isObj, Value.isArr]
    | str s =>
      simp [convert_with_custom_flattening, normalizeRecords, Value.isObj, Value.isArr]
  · intro v hv
    cases v <;> first
      | rfl
      | simp [Value.isObj] at hv

/-- Witness for C7: a top-level Number is rejected with the shape error,
and a Number element of an array would be wrapped as `{"value": 3}`. -/
theorem C7_invalid_shape_iff_witness :
    convert_with_custom_flattening "dot_notation" (.num 3) = .error .invalidInputShape ∧
    flattenRecord "dot_notation" (.num 3) = [("value", .num 3)] :=
  ⟨(C7_invalid_shape_iff "dot_notation" (.num 3)).1.mpr (by decide),
   (C7_invalid_shape_iff "dot_notation" (.num 3)).2 (.num 3) (by decide)⟩

theorem explodeFlatRows_all_empty : ∀ (strategy f : String), f ≠ "" →
    ∀ records : List Value,
    (∀ r ∈ records, ∃ fs, r = Value.obj fs ∧ fs.lookup f = some (.arr .nil)) →
    explodeFlatRows strategy (some f) records = some []
  | _, _, _, [], _ => rfl
  | strategy, f, hf, r :: rest, hall => by
    obtain ⟨fs, rfl, hlook⟩ := hall r (by simp)
    have hrest := explodeFlatRows_all_empty strategy f hf rest
      (fun r hr => hall r (by simp [hr]))
    have hopt : explodeRecordsOpt (some f) fs = [] := by
      simp [explodeRecordsOpt, hf, explodeRecords, hlook, ValueList.toList]
    simp [explodeFlatRows, hrest, hopt]

/-- Claim C2 is false as stated: exploding `[{"a": []}]` on `a` yields
zero FlatRows, yet `convert_with_array_explosion` does not fail — it
emits an output with an empty header and no rows. -/
theorem C2_counterexample :
    convert_with_array_explosion "dot_notation" (some "a")
      (.arr (.cons (.obj (.cons "a" (.arr .nil) .nil)) .nil)) = some ([], []) := by decide

/-- Claim C2 (amended): only `convert_with_custom_flattening` guards
against zero FlatRows — it fails with the `"No data to convert"` error
(`EmptyInput`) whenever normalization yields zero records, e.g. on `[]`.
`convert_with_array_explosion` performs no such check: exploding on a
field bound to an empty array in every record yields zero FlatRows and
the conversion emits an output with an empty header and no rows instead
of failing. -/
theorem C2_amended_empty_handling :
    (∀ (strategy : String) (data : Value), normalizeRecords data = .ok [] →
      convert_with_custom_flattening strategy data = .error .emptyInput) ∧
    (∀ (strategy f : String) (xs : ValueList), f ≠ "" →
      (∀ r ∈ xs.toList, ∃ fs, r = Value.obj fs ∧ fs.lookup f = some (.arr .nil)) →
      convert_with_array_explosion strategy (some f) (.arr xs) = some ([], [])) := by
  constructor
  · intro strategy data h
    simp [convert_with_custom_flattening, h, customFlatRows]
  · intro strategy f xs hf hall
    have hrows := explodeFlatRows_all_empty strategy f hf xs.toList hall
    show (explodeFlatRows strategy (some f) xs.toList).map reconcile = some ([], [])
    rw [hrows]
    rfl

/-- Witness for C2 (amended): `[]` fails the custom conversion, while the
explosion conversion on `[{"a": []}]` succeeds with empty output. -/
theorem C2_amended_empty_handling_witness :
    convert_with_custom_flattening "dot_notation" (.arr .nil) = .error .emptyInput ∧
    convert_with_array_explosion "json_string" (some "a")
      (.arr (.cons (.obj (.cons "a" (.arr .nil) .nil)) .nil)) = some ([], []) := by
  refine ⟨C2_amended_empty_handling.1 "dot_notation" (.arr .nil) rfl,
    C2_amended_empty_handling.2 "json_string" "a"
      (.cons (.obj (.cons "a" (.arr .nil) .nil)) .nil) (by decide) ?_⟩
  intro r hr
  simp [ValueList.toList] at hr
  subst hr
  exact ⟨Fields.cons "a" (.arr .nil) .nil, rfl, rfl⟩

theorem explodeFlatRows_no_field : ∀ (strategy : String) (af : Option String)
    (records : List Value),
    (∀ r ∈ records, r.isObj = true) →
    (af = none ∨ ∃ f, af = some f ∧
      ∀ r ∈ records, ∀ fs, r = Value.obj fs → fs.lookup f = none) →
    explodeFlatRows strategy af records = some (customFlatRows strategy records)
  | _, _, [], _, _ => rfl
  | strategy, af, r :: rest, hobj, hf => by
    cases r with
    | obj fs =>
      have hfr : af = none ∨ ∃ f, af = some f ∧
          ∀ r ∈ rest, ∀ fs, r = Value.obj fs → fs.lookup f = none := by
        rcases hf with h | ⟨f, haf, hall⟩
        · exact Or.inl h
        · exact Or.inr ⟨f, haf, fun r hr fs2 hr2 => hall r (by simp [hr]) fs2 hr2⟩
      have hrest := explodeFlatRows_no_field strategy af rest
        (fun r hr => hobj r (by simp [hr])) hfr
      have hopt : explodeRecordsOpt af fs = [fs] := by
        rcases hf with h | ⟨f, haf, hall⟩
        · subst h
          rfl
        · subst haf
          by_cases hfe : f = ""
          · simp [explodeRecordsOpt, hfe]
          · have hnone : fs.lookup f = none := hall (Value.obj fs) (by simp) fs rfl
            simp [explodeRecordsOpt, hfe, explodeRecords, hnone]
      simp [explodeFlatRows, hrest, hopt, customFlatRows, flattenRecord]
    | null => exact absurd (hobj _ (List.mem_cons_self _ _)) (by simp [Value.isObj])
    | bool b => exact absurd (hobj _ (List.mem_cons_self _ _)) (by simp [Value.isObj])
    | num n => exact absurd (hobj _ (List.mem_cons_self _ _)) (by simp [Value.isObj])
    | str s => exact absurd (hobj _ (List.mem_cons_self _ _)) (by simp [Value.isObj])
    | arr ys => exact absurd (hobj _ (List.mem_cons_self _ _)) (by simp [Value.isObj])

/-- Claim C10: on a top-level array whose elements are all Objects, the
explosion conversion with no explode field (or with a field absent from
every record) accumulates exactly the same FlatRows, in the same order,
as the custom-flattening conversion, and then emits the reconciliation
of exactly those rows. -/
theorem C10_explosion_matches_custom (strategy : String) (af : Option String)
    (xs : ValueList)
    (hobj : ∀ r ∈ xs.toList, r.isObj = true)
    (hf : af = none ∨ ∃ f, af = some f ∧
      ∀ r ∈ xs.toList, ∀ fs, r = Value.obj fs → fs.lookup f = none) :
    explodeFlatRows strategy af xs.toList = some (customFlatRows strategy xs.toList) ∧
    convert_with_array_explosion strategy af (.arr xs) =
      some (reconcile (customFlatRows strategy xs.toList)) := by
  have h1 := explodeFlatRows_no_field strategy af xs.toList hobj hf
  refine ⟨h1, ?_⟩
  show (explodeFlatRows strategy af xs.toList).map reconcile = _
  rw [h1]
  rfl

/-- Witness for C10 on `[{"a": 1}]` with no explode field selected. -/
theorem C10_explosion_matches_custom_witness :
    explodeFlatRows "dot_notation" none
      (ValueList.cons (.obj (.cons "a" (.num 1) .nil)) .nil).toList =
      some (customFlatRows "dot_notation"
        (ValueList.cons (.obj (.cons "a" (.num 1) .nil)) .nil).toList) :=
  (C10_explosion_matches_custom "dot_notation" none
    (ValueList.cons (.obj (.cons "a" (.num 1) .nil)) .nil)
    (by decide) (Or.inl rfl)).1

end JsonToCsv
